import Mathlib

/-!
Verification development for the serve-mp4 media catalog and transcoding
coordinator.  The Go sources are shallowly embedded: pure helpers become Lean
functions, per-entry mutable state becomes explicit state passing, calls into
external binaries (ffprobe / ffmpeg / the Go standard library) become
parameters of the embedding.  Go machine integers are modelled as Int (no
arithmetic in the embedded fragments comes close to overflow); Go maps are
modelled as association lists or as total functions with the zero-value
default, matching Go map-read semantics.
-/

namespace ServeMp4

/-! ## vid package: probe data model (vid/ffmpeg, struct Stream / ProbeResult) -/

/-- One stream of ffprobe output.  Only the fields the embedded code reads are
kept: Index, CodecName, CodecType, NbFrames and the Tags map.  The Tags map is
an association list; a Go map read of a missing key yields the zero value "". -/
structure Stream where
  index : Int
  codecName : String
  codecType : String
  nbFrames : String
  tags : List (String × String)
deriving DecidableEq, Repr

/-- Go map read with zero-value default: s.Tags["k"]. -/
def tagGet (s : Stream) (k : String) : String :=
  (s.tags.lookup k).getD ""

/-- The format section of ffprobe output (fields read by Identify). -/
structure FormatInfo where
  formatName : String
  duration : String
deriving DecidableEq, Repr

/-- Raw ffprobe output: streams plus format. -/
structure ProbeResult where
  streams : List Stream
  format : FormatInfo
deriving DecidableEq, Repr

/-- vid.Info: the analyzed information about a video. -/
structure Info where
  container : String
  duration : String
  videoIndex : Int
  videoCodec : String
  audioIndex : Int
  audioCodec : String
  audioLang : String
  raw : ProbeResult
deriving DecidableEq, Repr

/-! ## vid.Device

Embeds the Device enumeration together with its stringer-style String()
method (constant deviceName = "ChromeCastChromeCastUltraChromeOS" sliced at
indices [0, 10, 25, 33]) and ToContainer(), which returns "mp4" for every
device of this snapshot. -/

inductive Device where
  | chromeCast
  | chromeCastUltra
  | chromeOS
deriving DecidableEq, Repr

/-- Device.String(): slices of the stringer constant
"ChromeCastChromeCastUltraChromeOS" at indices 0, 10, 25, 33. -/
def Device.str : Device → String
  | .chromeCast => "ChromeCast"
  | .chromeCastUltra => "ChromeCastUltra"
  | .chromeOS => "ChromeOS"

/-- Device.ToContainer(): always "mp4" in this snapshot. -/
def Device.toContainer : Device → String
  | _ => "mp4"

/-! ## vid.Identify (stream selection)

Identify runs ffprobe, copies the container name, formats the duration, then
classifies the streams: video streams whose mimetype tag is "image/jpeg"
(cover art) are skipped, audio streams with an empty codec name are skipped,
data and subtitle streams are ignored, and any other codec type is an error.
It then requires exactly one remaining video stream and folds over the audio
streams, overwriting the chosen (index, codec, language) triple until the
chosen language equals the preferred language.

The duration branch calls time.ParseDuration / Duration.Round /
strings.Replace, all Go standard library; the embedding takes their composite
as the parameter durFmt (None models a parse failure, which Identify returns
as an error).  The probe invocation itself is modelled by passing the decoded
ProbeResult directly. -/

/-- Single pass over the indexed streams building the audio and video
position lists, with an error for unknown codec types.  Positions carry their
stream so that the later Raw.Streams[i] reads need no re-indexing. -/
def classify (lst : List (Nat × Stream)) (audios videos : List (Nat × Stream)) :
    Except String (List (Nat × Stream) × List (Nat × Stream)) :=
  match lst with
  | [] => .ok (audios, videos)
  | (i, s) :: rest =>
    if s.codecType = "video" then
      if tagGet s "mimetype" = "image/jpeg" then
        -- Likely a cover.jpeg.
        classify rest audios videos
      else
        classify rest audios (videos ++ [(i, s)])
    else if s.codecType = "audio" then
      if s.codecName ≠ "" then
        -- Do not add audio tracks without a codec.
        classify rest (audios ++ [(i, s)]) videos
      else
        classify rest audios videos
    else if s.codecType = "data" ∨ s.codecType = "subtitle" then
      classify rest audios videos
    else
      .error ("unknown stream " ++ s.codecType)

/-- The audio-preference loop of Identify: for each audio stream in file
order, if the chosen language already equals lang skip (continue), otherwise
overwrite the chosen (AudioIndex, AudioCodec, AudioLang) triple. -/
def audioFold (lang : String) (lst : List (Nat × Stream)) (st : Int × String × String) :
    Int × String × String :=
  match lst with
  | [] => st
  | (_, s) :: rest =>
    if st.2.2 = lang then
      audioFold lang rest st
    else
      audioFold lang rest (s.index, s.codecName, tagGet s "language")

/-- The duration branch of Identify: an empty ffprobe duration leaves the
field empty, otherwise the stdlib parse/round/rewrite composite durFmt runs
and its failure is returned as an error. -/
def durStepF (durFmt : String → Option String) (d : String) : Except String String :=
  if d = "" then .ok ""
  else
    match durFmt d with
    | some s => .ok s
    | none => .error "duration parse"

/-- vid.Identify on an already-decoded probe result.  durFmt is the composite
of time.ParseDuration with the two-unit rounding and string rewriting (Go
standard library, opaque here); lang is the preferred language. -/
def identify (durFmt : String → Option String) (lang : String) (raw : ProbeResult) :
    Except String Info :=
  match durStepF durFmt raw.format.duration with
  | .error e => .error e
  | .ok dur =>
    match classify raw.streams.enum [] [] with
    | .error e => .error e
    | .ok (audios, videos) =>
      if videos.length > 1 then .error "too many video streams"
      else
        match videos with
        | [] => .error "no video stream found"
        | (_, sv) :: _ =>
          let a := audioFold lang audios (0, "", "")
          .ok { container := raw.format.formatName
                duration := dur
                videoIndex := sv.index
                videoCodec := sv.codecName
                audioIndex := a.1
                audioCodec := a.2.1
                audioLang := a.2.2
                raw := raw }

/-- A stream Identify keeps as video: codec type "video" and not cover art. -/
def videoSel (s : Stream) : Bool :=
  s.codecType = "video" ∧ ¬ tagGet s "mimetype" = "image/jpeg"

/-- A stream Identify keeps as audio: codec type "audio" and a codec name. -/
def audioSel (s : Stream) : Bool :=
  s.codecType = "audio" ∧ ¬ s.codecName = ""

/-- The video streams Identify keeps. -/
def selectableVideos (raw : ProbeResult) : List Stream :=
  raw.streams.filter videoSel

/-- The audio streams Identify keeps. -/
def selectableAudios (raw : ProbeResult) : List Stream :=
  raw.streams.filter audioSel

/-! ## strconv.Atoi

Go strconv.Atoi on a 64-bit platform: an optional sign followed by at least
one decimal digit, rejecting anything else; a value outside the int64 range
is an error (Atoi also returns a clamped value then, which the callers here
discard because err is non-nil). -/

/-- Value of a non-empty all-digit string, none otherwise. -/
def digitsVal : List Char → Option Nat
  | [] => none
  | [c] => if c.isDigit then some (c.toNat - '0'.toNat) else none
  | c :: rest =>
    if c.isDigit then
      match digitsVal rest with
      | some n => some ((c.toNat - '0'.toNat) * 10 ^ rest.length + n)
      | none => none
    else none

/-- strconv.Atoi. -/
def atoi (s : String) : Option Int :=
  match s.data with
  | '+' :: ds =>
    match digitsVal ds with
    | some n => if n ≤ 2 ^ 63 - 1 then some (n : Int) else none
    | none => none
  | '-' :: ds =>
    match digitsVal ds with
    | some n => if n ≤ 2 ^ 63 then some (-(n : Int)) else none
    | none => none
  | ds =>
    match digitsVal ds with
    | some n => if n ≤ 2 ^ 63 - 1 then some (n : Int) else none
    | none => none

/-! ## fmt.Sprintf("%3.1f%%", 100.*float32(f)/float32(nb))

The source formats 100*frame/totalFrames as a float32 with one decimal.  The
embedding renders the exact rational 1000*f/nb rounded half-to-even; this
agrees with the float computation on every input used by the theorems below
(their quotients are exactly representable, e.g. 25.0).  The minimum width 3
never pads because every rendered value has at least three characters.
Division by zero follows the float semantics: 0/0 renders NaN, otherwise a
signed infinity. -/

/-- Round num/den (den > 0) to the nearest integer, ties to even. -/
def roundHalfEven (num : Int) (den : Int) : Int :=
  let q := Int.fdiv num den
  let r := num - q * den
  if 2 * r < den then q
  else if den < 2 * r then q + 1
  else if q % 2 = 0 then q else q + 1

/-- Render a per-mille count m as the decimal "m/10.m%10". -/
def renderTenths (m : Int) : String :=
  if m < 0 then
    "-" ++ toString ((-m) / 10) ++ "." ++ toString ((-m) % 10)
  else
    toString (m / 10) ++ "." ++ toString (m % 10)

/-- The percentage string: "%3.1f%%" of 100*f/nb. -/
def fmtPercent (f nb : Int) : String :=
  if nb = 0 then
    (if f = 0 then "NaN" else if f > 0 then "+Inf" else "-Inf") ++ "%"
  else if nb > 0 then
    renderTenths (roundHalfEven (1000 * f) nb) ++ "%"
  else
    renderTenths (roundHalfEven (1000 * (-f)) (-nb)) ++ "%"

/-! ## Entry (catalog.go)

The per-file record.  The Go struct holds rel, the preferred language and
root directory (configuration, irrelevant to the embedded operations), and
under its lock: info, err, cached, transcoding, frame, cold.  The cached
map[vid.Device]bool is modelled as a total function with the Go zero-value
default false. -/

structure CEntry where
  rel : String
  info : Option Info
  err : Option String
  cached : Device → Bool
  transcoding : Bool
  frame : Int
  cold : Bool

/-- Entry.Info(): lazy one-shot probe.  The external vid.Identify invocation
is the parameter probe; the Bool of the result records whether it was
invoked.  Source:

    if e.info == nil && e.err == nil {
        if e.info, e.err = vid.Identify(s, e.preferredLang); e.err != nil {
            log.Printf(...)
        }
    }
    return e.info
-/
def infoCall (e : CEntry) (probe : Except String Info) :
    CEntry × Option Info × Bool :=
  if e.info = none ∧ e.err = none then
    match probe with
    | .ok v => ({ e with info := some v }, some v, true)
    | .error m => ({ e with err := some m }, none, true)
  else
    (e, e.info, false)

/-- Entry.Percent().  It starts with v := e.Info() (which may itself probe,
hence the probe parameter and the returned entry state).  A nil v yields
"N/A"; then the frame is read under the lock; then
strconv.Atoi(v.Raw.Streams[v.VideoIndex].NbFrames) — note the slice is
indexed by VideoIndex, so an out-of-range or negative index is a Go runtime
panic, modelled as the none result — an Atoi error yields "N/A"; otherwise
the formatted percentage. -/
def percent (e : CEntry) (probe : Except String Info) :
    Option String × CEntry :=
  let r := infoCall e probe
  let e1 := r.1
  match r.2.1 with
  | none => (some "N/A", e1)
  | some v =>
    let f := e1.frame
    if h : 0 ≤ v.videoIndex ∧ v.videoIndex.toNat < v.raw.streams.length then
      match atoi (v.raw.streams[v.videoIndex.toNat].nbFrames) with
      | none => (some "N/A", e1)
      | some nb => (some (fmtPercent f nb), e1)
    else
      (none, e1)

/-! ## transcodingQueue.run (catalog.go)

The worker loop body for one dequeued request.  Source:

    i := r.e.Info()
    if i == nil {
        log.Printf("Skipping transcoding for %q", r.e.Rel)
    }
    path := filepath.Join(t.c.cacheDir, toCachedPath(r.e.Rel, r.v))
    t.mu.Lock()
    err := r.v.TranscodeMP4(r.e.srcFile(), path, i, p)
    t.mu.Unlock()
    r.e.mu.Lock()
    r.e.transcoding = false
    if err == nil {
        r.e.cached[r.v] = true
    }
    r.e.mu.Unlock()

There is no continue after the log: the nil i flows into TranscodeMP4, whose
first act is to build "-map" arguments from v.VideoIndex and v.AudioIndex,
dereferencing the nil pointer.  The embedding models that first dereference;
a none result of runStep is the ensuing runtime panic, which aborts the
worker before transcoding is cleared. -/

/-- The "-map" argument pairs TranscodeMP4 builds from its Info pointer; none
models the nil-pointer dereference when the pointer is nil. -/
def transcodeMapArgs (v : Option Info) : Option (List String) :=
  match v with
  | none => none
  | some i =>
    some ["-map", "0:" ++ toString i.videoIndex, "-map", "0:" ++ toString i.audioIndex]

/-- Process one transcoding request for device d against entry e.  probe
models the lazy Entry.Info() probe, encodeOk whether the external encoder
exits successfully.  Result: (whether the skip message was logged, final
entry state or none on panic). -/
def runStep (d : Device) (e : CEntry) (probe : Except String Info) (encodeOk : Bool) :
    Bool × Option CEntry :=
  let r := infoCall e probe
  let e1 := r.1
  let i := r.2.1
  let logged := i = none
  match transcodeMapArgs i with
  | none => (decide logged, none)
  | some _ =>
    let e2 := { e1 with
      transcoding := false
      cached := if encodeOk then (fun d' => if d' = d then true else e1.cached d') else e1.cached }
    (decide logged, some e2)

/-! ## toCachedPath (catalog.go)

    func toCachedPath(rel string, v vid.Device) string {
        path := filepath.Join(v.String(), rel)
        ext := filepath.Ext(path)
        return path[:len(path)-len(ext)] + "." + v.ToContainer()
    }

filepath.Join(name, rel) is modelled as name ++ "/" ++ rel, which agrees with
Join for every cleaned relative rel the catalog produces (Join additionally
runs Clean, a no-op on such inputs).  filepath.Ext scans the final
slash-separated element from the end for its last dot; the embedding works on
character lists (byte and character positions coincide because the suffix
being removed is the scan result itself). -/

/-- The scan inside filepath.Ext: walk the reversed path until a slash (no
extension) or a dot (extension found); acc collects the scanned characters in
forward order. -/
def extScan : List Char → List Char → List Char
  | [], _ => []
  | c :: rest, acc =>
    if c = '/' then []
    else if c = '.' then c :: acc
    else extScan rest (c :: acc)

/-- filepath.Ext on a character list. -/
def extOf (cs : List Char) : List Char :=
  extScan cs.reverse []

/-- path[:len(path)-len(suf)] for a suffix suf of path. -/
def dropSuffix (cs suf : List Char) : List Char :=
  cs.take (cs.length - suf.length)

/-- toCachedPath. -/
def toCachedPath (rel : String) (d : Device) : String :=
  let path := d.str.data ++ '/' :: rel.data
  ⟨dropSuffix path (extOf path) ++ '.' :: d.toContainer.data⟩

/-- rel with its filepath.Ext removed (the part of rel that survives into the
cache path). -/
def stripExtData (rel : String) : List Char :=
  dropSuffix rel.data (extOf rel.data)

/-! ## crawler.handleRefresh (catalog.go): the debounce loop

    for {
        <-refresh
        log.Printf("Will refresh in 10s")
        delay := time.After(10 * time.Second)
        for {
            select {
            case <-refresh:
            case <-delay:
                break
            }
        }
        if err := c.enumerateEntries(); err != nil { ... }
    }

The inner loop is embedded as a transition system over the events the select
can receive.  Each select case body either falls through (the empty refresh
case) or executes a break statement (the timer case).  Per the Go
specification, a break statement terminates the innermost enclosing for,
switch or select statement: inside this select, that is the select itself, so
both case endings transfer control to the end of the select statement, which
is the end of the inner for body. -/

/-- An event the inner select can receive. -/
inductive DebounceEv where
  | refresh
  | timer
deriving DecidableEq, Repr

/-- How a select case body ends. -/
inductive CaseEnd where
  | fallThrough
  | breakStmt
deriving DecidableEq, Repr

/-- The select statement of the source: the refresh case has an empty body,
the timer case consists of a break statement. -/
def innerSelectCase : DebounceEv → CaseEnd
  | .refresh => .fallThrough
  | .timer => .breakStmt

/-- What a case ending does to the enclosing for loop.  Go semantics: a
break binds to the innermost for, switch or select; here that is the select,
so the break ends the select only and the for body then ends normally, and
the boolean (does the for loop exit?) is false for both endings. -/
def caseEndExitsLoop : CaseEnd → Bool
  | .fallThrough => false
  | .breakStmt => false

/-- Modelled from the spec: the coalescing loop the specification describes
for the missing intended behavior, in which the firing of the timer ends the
coalescing phase ("When the timer fires, it calls enumerate").  Identical to
caseEndExitsLoop except that the break is given the effect the spec ascribes
to it: leaving the loop. -/
def caseEndExitsLoopSpec : CaseEnd → Bool
  | .fallThrough => false
  | .breakStmt => true

/-- Run the inner loop of handleRefresh over a finite trace of received
events with the given case semantics; the result is true iff control left
the inner loop (and so reached the enumerate call) within the trace. -/
def innerLoopExits (sem : CaseEnd → Bool) : List DebounceEv → Bool
  | [] => false
  | e :: es =>
    if sem (innerSelectCase e) then true else innerLoopExits sem es

/-- Whether enumerate is reached after the debounce loop consumes the trace. -/
def enumerateReached (trace : List DebounceEv) : Bool :=
  innerLoopExits caseEndExitsLoop trace

/-- Modelled from the spec: enumerate reachability under the intended break
semantics. -/
def enumerateReachedSpec (trace : List DebounceEv) : Bool :=
  innerLoopExits caseEndExitsLoopSpec trace

/-! ## Directory tree (catalog.go)

    type Directory struct {
        Items   map[string]*Entry
        Subdirs map[string]*Directory
    }

Entries are identified by a number (only identity and nil-ness matter to the
lookup claims); both maps become association lists keyed by character lists.
lookupDir walks the path splitting at the first slash (strings.IndexByte);
the embedding consumes the path character by character, accumulating the
current segment, which computes the same split.  lookupEntry splits at the
last slash (strings.LastIndexByte). -/

/-- A Directory node. -/
inductive DirT where
  | node (subdirs : List (List Char × DirT)) (items : List (List Char × Nat))

/-- The Subdirs map. -/
def DirT.subdirs : DirT → List (List Char × DirT)
  | .node s _ => s

/-- The Items map. -/
def DirT.items : DirT → List (List Char × Nat)
  | .node _ i => i

/-- Walk of lookupDir: acc holds the reversed current segment, rest the
unread characters.  Reaching the end returns Subdirs[segment] (the i == -1
branch); reaching a slash descends into Subdirs[segment] (nil propagates) and
continues, where an empty remainder returns the subdirectory itself (the
recursive call with the empty string). -/
def lookupDirAux : DirT → List Char → List Char → Option DirT
  | d, acc, [] => d.subdirs.lookup acc.reverse
  | d, acc, c :: rest =>
    if c = '/' then
      match d.subdirs.lookup acc.reverse with
      | none => none
      | some s => if rest = [] then some s else lookupDirAux s [] rest
    else
      lookupDirAux d (c :: acc) rest

/-- Directory.lookupDir. -/
def lookupDir (d : DirT) (dir : List Char) : Option DirT :=
  if dir = [] then some d else lookupDirAux d [] dir

/-- Split a path at its last slash: some (before, after) with
path = before ++ slash ++ after and after slash-free; none when slash-free. -/
def splitLastSlash (cs : List Char) : Option (List Char × List Char) :=
  match cs with
  | [] => none
  | c :: rest =>
    match splitLastSlash rest with
    | some (b, a) => some (c :: b, a)
    | none => if c = '/' then some ([], rest) else none

/-- Directory.lookupEntry:

    s := d
    if i := strings.LastIndexByte(rel, slash); i != -1 {
        if i == 0 { return nil }
        s = d.lookupDir(rel[:i])
        if s == nil { return nil }
        rel = rel[i+1:]
    }
    return s.Items[rel]
-/
def lookupEntry (d : DirT) (rel : List Char) : Option Nat :=
  match splitLastSlash rel with
  | none => d.items.lookup rel
  | some (before, after) =>
    if before = [] then none
    else
      match lookupDir d before with
      | none => none
      | some s => s.items.lookup after

/-- Well-formedness of a tree as built by addFile from walked paths: no empty
key in either map, recursively.  (filepath.Walk yields cleaned paths, so
addFile never splits off an empty segment.) -/
inductive DirWf : DirT → Prop
  | node {subdirs : List (List Char × DirT)} {items : List (List Char × Nat)}
      (hitems : ∀ k e, (k, e) ∈ items → k ≠ [])
      (hkeys : ∀ k c, (k, c) ∈ subdirs → k ≠ [])
      (hsubs : ∀ k c, (k, c) ∈ subdirs → DirWf c) :
      DirWf (.node subdirs items)

/-! ## Shared concrete inputs for witnesses and counterexamples -/

/-- A duration formatter that always fails; unused whenever
format.duration is empty. -/
def durFmtNone : String → Option String := fun _ => none

/-- A plain h264 video stream. -/
def stVid : Stream :=
  { index := 0, codecName := "h264", codecType := "video", nbFrames := "200", tags := [] }

/-- An ac3 audio stream tagged eng. -/
def stAudEng : Stream :=
  { index := 1, codecName := "ac3", codecType := "audio", nbFrames := "", tags := [("language", "eng")] }

/-- An aac audio stream tagged fre. -/
def stAudFre : Stream :=
  { index := 2, codecName := "aac", codecType := "audio", nbFrames := "", tags := [("language", "fre")] }

/-- An aac audio stream tagged und, at ffprobe index 5. -/
def stAudUnd : Stream :=
  { index := 5, codecName := "aac", codecType := "audio", nbFrames := "", tags := [("language", "und")] }

/-- A format section with an empty duration. -/
def fmtEmpty : FormatInfo := { formatName := "mkv", duration := "" }

/-- Probe info for an entry whose single video stream reports 200 frames. -/
def infoFrames200 : Info :=
  { container := "mkv", duration := "", videoIndex := 0, videoCodec := "h264"
    audioIndex := 1, audioCodec := "ac3", audioLang := "eng"
    raw := ⟨[stVid], fmtEmpty⟩ }

/-- An entry whose metadata is loaded, whose every device cache bit is set,
and whose last reported frame is 50 of 200. -/
def entryCachedHalf : CEntry :=
  { rel := "a/b.mkv", info := some infoFrames200, err := none
    cached := fun _ => true, transcoding := false, frame := 50, cold := false }

/-- An entry whose probe already failed (sticky error), still marked as
transcoding, as the queue worker dequeues its request. -/
def entryProbeFailed : CEntry :=
  { rel := "a/b.mkv", info := none, err := some "probe failed"
    cached := fun _ => false, transcoding := true, frame := 0, cold := false }

/-! # Theorems -/

/-! ## Helper lemmas -/

theorem infoCall_stale {e : CEntry} (probe : Except String Info)
    (h : ¬(e.info = none ∧ e.err = none)) :
    infoCall e probe = (e, e.info, false) := by
  simp [infoCall, h]

theorem infoCall_frame (e : CEntry) (probe : Except String Info) :
    ((infoCall e probe).1).frame = e.frame := by
  obtain ⟨rel, info, err, cached, t, fr, c⟩ := e
  cases info <;> cases err <;> cases probe <;> simp [infoCall]

theorem infoCall_cached_irrel (e : CEntry) (probe : Except String Info)
    (b : Device → Bool) :
    (infoCall { e with cached := b } probe).2 = (infoCall e probe).2 := by
  obtain ⟨rel, info, err, cached, t, fr, c⟩ := e
  cases info <;> cases err <;> cases probe <;> simp [infoCall]

theorem classify_ok :
    ∀ (l : List (Nat × Stream)) (as vs as' vs' : List (Nat × Stream)),
      classify l as vs = .ok (as', vs') →
      as' = as ++ l.filter (fun q => audioSel q.2) ∧
      vs' = vs ++ l.filter (fun q => videoSel q.2) := by
  intro l
  induction l with
  | nil =>
    intro as vs as' vs' h
    simp [classify] at h
    simp [h.1, h.2]
  | cons q rest ih =>
    obtain ⟨i, s⟩ := q
    intro as vs as' vs' h
    simp only [classify] at h
    by_cases hv : s.codecType = "video"
    · rw [if_pos hv] at h
      by_cases hm : tagGet s "mimetype" = "image/jpeg"
      · rw [if_pos hm] at h
        have := ih _ _ _ _ h
        simp [List.filter_cons, audioSel, videoSel, hv, hm, this.1, this.2]
      · rw [if_neg hm] at h
        have := ih _ _ _ _ h
        simp [List.filter_cons, audioSel, videoSel, hv, hm, this.1, this.2]
    · rw [if_neg hv] at h
      by_cases ha : s.codecType = "audio"
      · rw [if_pos ha] at h
        by_cases hc : s.codecName = ""
        · rw [if_neg (by simp [hc])] at h
          have := ih _ _ _ _ h
          simp [List.filter_cons, audioSel, videoSel, hv, ha, hc, this.1, this.2]
        · rw [if_pos (by simp [hc])] at h
          have := ih _ _ _ _ h
          simp [List.filter_cons, audioSel, videoSel, hv, ha, hc, this.1, this.2]
      · rw [if_neg ha] at h
        by_cases hd : s.codecType = "data" ∨ s.codecType = "subtitle"
        · rw [if_pos hd] at h
          have := ih _ _ _ _ h
          simp [List.filter_cons, audioSel, videoSel, hv, ha, this.1, this.2]
        · rw [if_neg hd] at h
          exact absurd h (by simp)

theorem enumFrom_filter_map_snd (p : Stream → Bool) (l : List Stream) :
    ∀ n : Nat, ((List.enumFrom n l).filter (fun q => p q.2)).map Prod.snd = l.filter p := by
  induction l with
  | nil => intro n; rfl
  | cons a t ih =>
    intro n
    simp only [List.enumFrom_cons, List.filter_cons]
    by_cases hp : p a
    · simp [hp, ih]
    · simp [hp, ih]

/-- The audio and video lists Identify classifies project to the selectable
stream lists. -/
theorem classify_enum_snd {raw : ProbeResult} {as vs : List (Nat × Stream)}
    (h : classify raw.streams.enum [] [] = .ok (as, vs)) :
    as.map Prod.snd = selectableAudios raw ∧ vs.map Prod.snd = selectableVideos raw := by
  obtain ⟨h1, h2⟩ := classify_ok _ _ _ _ _ h
  subst h1 h2
  constructor
  · simpa [selectableAudios] using enumFrom_filter_map_snd audioSel raw.streams 0
  · simpa [selectableVideos] using enumFrom_filter_map_snd videoSel raw.streams 0

/-- Inversion of a successful identify: the classification succeeded and the
chosen audio triple is the audio fold over the classified audio streams. -/
theorem identify_ok_parts {durFmt : String → Option String} {lang : String}
    {raw : ProbeResult} {i : Info} (h : identify durFmt lang raw = .ok i) :
    ∃ as vs, classify raw.streams.enum [] [] = .ok (as, vs) ∧
      (i.audioIndex, i.audioCodec, i.audioLang) = audioFold lang as (0, "", "") := by
  unfold identify at h
  rcases hd : durStepF durFmt raw.format.duration with e | dur <;> rw [hd] at h <;>
    dsimp only at h
  · exact absurd h (by simp)
  · rcases hc : classify raw.streams.enum [] [] with e | ⟨as, vs⟩ <;> rw [hc] at h <;>
      dsimp only at h
    · exact absurd h (by simp)
    · refine ⟨as, vs, rfl, ?_⟩
      by_cases hl : vs.length > 1
      · rw [if_pos hl] at h; exact absurd h (by simp)
      · rw [if_neg hl] at h
        rcases vs with _ | ⟨⟨iv, sv⟩, t⟩
        · exact absurd h (by simp)
        · dsimp only at h
          simp only [Except.ok.injEq] at h
          rw [← h]

/-- Every run of the audio fold ends at its initial state or at the update of
some member of the list. -/
theorem audioFold_mem (lang : String) :
    ∀ (l : List (Nat × Stream)) (st : Int × String × String),
      audioFold lang l st = st ∨
      ∃ q ∈ l, audioFold lang l st = (q.2.index, q.2.codecName, tagGet q.2 "language") := by
  intro l
  induction l with
  | nil => intro st; left; rfl
  | cons q rest ih =>
    intro st
    by_cases hs : st.2.2 = lang
    · rcases ih st with h | ⟨p, hp, he⟩
      · left; simpa [audioFold, hs] using h
      · right; exact ⟨p, List.mem_cons_of_mem _ hp, by simpa [audioFold, hs] using he⟩
    · rcases ih (q.2.index, q.2.codecName, tagGet q.2 "language") with h | ⟨p, hp, he⟩
      · right; exact ⟨q, List.mem_cons_self _ _, by simpa [audioFold, hs] using h⟩
      · right; exact ⟨p, List.mem_cons_of_mem _ hp, by simpa [audioFold, hs] using he⟩

/-- When no language tag in the list matches and the running state does not
match either, every iteration overwrites, so the fold ends at the update of
the last element (or the initial state for an empty list). -/
theorem audioFold_no_match (lang : String) :
    ∀ (l : List (Nat × Stream)) (st : Int × String × String) (q : Nat × Stream),
      st.2.2 ≠ lang → (∀ p ∈ l, tagGet p.2 "language" ≠ lang) →
      l.getLast? = some q →
      audioFold lang l st = (q.2.index, q.2.codecName, tagGet q.2 "language") := by
  intro l
  induction l with
  | nil => intro st q _ _ hlast; simp at hlast
  | cons p rest ih =>
    intro st q hst hall hlast
    have hstep : audioFold lang (p :: rest) st =
        audioFold lang rest (p.2.index, p.2.codecName, tagGet p.2 "language") := by
      simp [audioFold, hst]
    rcases rest with _ | ⟨r, t⟩
    · simp only [List.getLast?_singleton, Option.some.injEq] at hlast
      rw [hstep, ← hlast]
      rfl
    · rw [List.getLast?_cons_cons] at hlast
      exact hstep.trans
        (ih _ q (hall p (List.mem_cons_self _ _))
          (fun x hx => hall x (List.mem_cons_of_mem _ hx)) hlast)

theorem extScan_append_slash :
    ∀ (u acc v : List Char), extScan (u ++ '/' :: v) acc = extScan u acc := by
  intro u
  induction u with
  | nil => intro acc v; simp [extScan]
  | cons c u' ih =>
    intro acc v
    by_cases hc : c = '/'
    · simp [extScan, hc]
    · by_cases hd : c = '.'
      · simp [extScan, hc, hd]
      · simp [extScan, hc, hd, ih]

theorem extOf_append_slash (x y : List Char) : extOf (x ++ '/' :: y) = extOf y := by
  unfold extOf
  rw [show x ++ '/' :: y = (x ++ ['/']) ++ y by simp, List.reverse_append,
    List.reverse_append]
  simp only [List.reverse_cons, List.reverse_nil, List.nil_append, List.append_assoc,
    List.singleton_append]
  exact extScan_append_slash y.reverse [] x.reverse

theorem extOf_append_dot_mp4 (x : List Char) :
    extOf (x ++ '.' :: ['m', 'p', '4']) = '.' :: ['m', 'p', '4'] := by
  unfold extOf
  rw [List.reverse_append]
  rfl

theorem extScan_length_le : ∀ (u acc : List Char),
    (extScan u acc).length ≤ u.length + acc.length := by
  intro u
  induction u with
  | nil => intro acc; simp [extScan]
  | cons c u' ih =>
    intro acc
    by_cases hc : c = '/'
    · simp [extScan, hc]
    · by_cases hd : c = '.'
      · simp [extScan, hc, hd]
        omega
      · simp only [extScan, if_neg hc, if_neg hd]
        have := ih (c :: acc)
        simp at this ⊢
        omega

theorem extOf_length_le (cs : List Char) : (extOf cs).length ≤ cs.length := by
  have := extScan_length_le cs.reverse []
  simpa [extOf] using this

theorem dropSuffix_append (x y s : List Char) (h : s.length ≤ y.length) :
    dropSuffix (x ++ y) s = x ++ dropSuffix y s := by
  unfold dropSuffix
  rw [List.take_append_eq_append_take]
  have h1 : (x ++ y).length - s.length = x.length + (y.length - s.length) := by
    simp [List.length_append]
    omega
  rw [h1]
  congr 1
  · exact List.take_of_length_le (by omega)
  · congr 1
    omega

theorem dropSuffix_append_self (l s : List Char) : dropSuffix (l ++ s) s = l := by
  unfold dropSuffix
  have h1 : (l ++ s).length - s.length = l.length := by simp
  rw [h1, List.take_left]

theorem toContainer_mp4 (d : Device) : d.toContainer = "mp4" := by
  cases d <;> rfl

/-- The cache path laid out: device name, slash, extension-stripped rel,
then ".mp4". -/
theorem toCachedPath_data (rel : String) (d : Device) :
    (toCachedPath rel d).data =
      d.str.data ++ '/' :: (stripExtData rel ++ '.' :: ['m', 'p', '4']) := by
  unfold toCachedPath stripExtData
  dsimp only
  have hext : extOf (d.str.data ++ '/' :: rel.data) = extOf rel.data :=
    extOf_append_slash _ _
  have hlen : (extOf rel.data).length ≤ ('/' :: rel.data).length := by
    have := extOf_length_le rel.data
    simp only [List.length_cons]
    omega
  rw [hext, show d.str.data ++ '/' :: rel.data = d.str.data ++ ('/' :: rel.data) from rfl,
    dropSuffix_append _ _ _ hlen]
  have h2 : dropSuffix ('/' :: rel.data) (extOf rel.data) =
      '/' :: dropSuffix rel.data (extOf rel.data) := by
    have := dropSuffix_append ['/'] rel.data (extOf rel.data) (extOf_length_le rel.data)
    simpa using this
  rw [h2, toContainer_mp4]
  simp

theorem no_slash_append_inj :
    ∀ (xs ys u v : List Char), ¬ '/' ∈ xs → ¬ '/' ∈ ys →
      xs ++ '/' :: u = ys ++ '/' :: v → xs = ys ∧ u = v := by
  intro xs
  induction xs with
  | nil =>
    intro ys u v _ hys h
    rcases ys with _ | ⟨y, ys'⟩
    · simpa using h
    · simp only [List.nil_append, List.cons_append, List.cons.injEq] at h
      exfalso
      apply hys
      rw [h.1]
      exact List.mem_cons_self _ _
  | cons x xs' ih =>
    intro ys u v hxs hys h
    rcases ys with _ | ⟨y, ys'⟩
    · simp only [List.nil_append, List.cons_append, List.cons.injEq] at h
      exfalso
      apply hxs
      rw [← h.1]
      exact List.mem_cons_self _ _
    · simp only [List.cons_append, List.cons.injEq] at h
      obtain ⟨h1, h2⟩ := ih ys' u v (fun hm => hxs (List.mem_cons_of_mem _ hm))
        (fun hm => hys (List.mem_cons_of_mem _ hm)) h.2
      exact ⟨by rw [h.1, h1], h2⟩

theorem dev_str_no_slash (d : Device) : ¬ '/' ∈ (Device.str d).data := by
  cases d <;> decide

theorem dev_str_inj (d d' : Device) (h : (Device.str d).data = (Device.str d').data) :
    d = d' := by
  cases d <;> cases d' <;> first | rfl | (exact absurd h (by decide))

theorem lookup_none_of_keys {α : Type} (k : List Char) :
    ∀ (l : List (List Char × α)), (∀ p ∈ l, p.1 ≠ k) → l.lookup k = none := by
  intro l
  induction l with
  | nil => intro _; rfl
  | cons p rest ih =>
    intro h
    obtain ⟨pk, pv⟩ := p
    have hne : ¬ k == pk := by
      simp only [beq_iff_eq]
      exact fun he => h (pk, pv) (List.mem_cons_self _ _) he.symm
    simp [List.lookup, hne, ih (fun q hq => h q (List.mem_cons_of_mem _ hq))]

theorem lookup_mem {α : Type} (k : List Char) (v : α) :
    ∀ (l : List (List Char × α)), l.lookup k = some v → (k, v) ∈ l := by
  intro l
  induction l with
  | nil => intro h; simp [List.lookup] at h
  | cons p rest ih =>
    intro h
    obtain ⟨pk, pv⟩ := p
    by_cases he : k == pk
    · simp [List.lookup, he] at h
      have hk : k = pk := by simpa using he
      subst hk
      rw [← h]
      exact List.mem_cons_self _ _
    · simp [List.lookup, he] at h
      exact List.mem_cons_of_mem _ (ih h)

theorem wf_items_lookup_empty {d : DirT} (h : DirWf d) : d.items.lookup [] = none := by
  obtain ⟨hitems, _, _⟩ := h
  exact lookup_none_of_keys [] _ (fun p hp => hitems p.1 p.2 hp)

theorem wf_subdirs_lookup_empty {d : DirT} (h : DirWf d) : d.subdirs.lookup [] = none := by
  obtain ⟨_, hkeys, _⟩ := h
  exact lookup_none_of_keys [] _ (fun p hp => hkeys p.1 p.2 hp)

theorem wf_subdir_of_lookup {d : DirT} {k : List Char} {s : DirT}
    (h : DirWf d) (hl : d.subdirs.lookup k = some s) : DirWf s := by
  obtain ⟨_, _, hsubs⟩ := h
  exact hsubs k s (lookup_mem k s _ hl)

/-- One unfolding of lookupDirAux at a slash. -/
theorem lookupDirAux_slash (d : DirT) (acc rest : List Char) :
    lookupDirAux d acc ('/' :: rest) =
      match d.subdirs.lookup acc.reverse with
      | none => none
      | some s => if rest = [] then some s else lookupDirAux s [] rest := by
  simp [lookupDirAux]

/-- One unfolding of lookupDirAux at an ordinary character. -/
theorem lookupDirAux_char (d : DirT) (acc rest : List Char) (c : Char) (hc : ¬ c = '/') :
    lookupDirAux d acc (c :: rest) = lookupDirAux d (c :: acc) rest := by
  simp [lookupDirAux, hc]

/-- lookupDirAux reaches only well-formed nodes. -/
theorem lookupDirAux_wf :
    ∀ (rest acc : List Char) (d s : DirT),
      DirWf d → lookupDirAux d acc rest = some s → DirWf s := by
  intro rest
  induction rest with
  | nil =>
    intro acc d s hwf h
    exact wf_subdir_of_lookup hwf h
  | cons c rest' ih =>
    intro acc d s hwf h
    by_cases hc : c = '/'
    · subst hc
      rw [lookupDirAux_slash] at h
      rcases hl : d.subdirs.lookup acc.reverse with _ | s' <;> rw [hl] at h <;>
        dsimp only at h
      · exact absurd h (by simp)
      · have hwf' := wf_subdir_of_lookup hwf hl
        by_cases hr : rest' = []
        · rw [if_pos hr] at h
          injection h with h
          exact h ▸ hwf'
        · rw [if_neg hr] at h
          exact ih [] s' s hwf' h
    · rw [lookupDirAux_char d acc rest' c hc] at h
      exact ih (c :: acc) d s hwf h

theorem lookupDir_wf {d s : DirT} {cs : List Char}
    (hwf : DirWf d) (h : lookupDir d cs = some s) : DirWf s := by
  unfold lookupDir at h
  by_cases hc : cs = []
  · rw [if_pos hc] at h
    injection h with h
    exact h ▸ hwf
  · rw [if_neg hc] at h
    exact lookupDirAux_wf cs [] d s hwf h

/-- Trailing slash: when the path is non-empty and does not already end in a
slash, a final slash is consumed without effect. -/
theorem lookupDirAux_trailing :
    ∀ (rest acc : List Char) (d : DirT),
      rest ≠ [] → rest.getLast? ≠ some '/' →
      lookupDirAux d acc (rest ++ ['/']) = lookupDirAux d acc rest := by
  intro rest
  induction rest with
  | nil => intro acc d h _; exact absurd rfl h
  | cons c rest' ih =>
    intro acc d _ hlast
    by_cases hc : c = '/'
    · subst hc
      rcases rest' with _ | ⟨r, t⟩
      · simp at hlast
      · rw [List.cons_append, lookupDirAux_slash, lookupDirAux_slash]
        rcases hl : d.subdirs.lookup acc.reverse with _ | s
        · rfl
        · dsimp only
          rw [if_neg (by simp : ¬ (r :: t) ++ ['/'] = []),
            if_neg (by simp : ¬ (r : Char) :: t = [])]
          exact ih [] s (by simp) (by simpa using hlast)
    · rw [List.cons_append, lookupDirAux_char d acc _ c hc,
        lookupDirAux_char d acc rest' c hc]
      rcases rest' with _ | ⟨r, t⟩
      · rw [List.nil_append, lookupDirAux_slash,
          show lookupDirAux d (c :: acc) [] = d.subdirs.lookup (c :: acc).reverse from rfl]
        rcases hl : d.subdirs.lookup (c :: acc).reverse with _ | s
        · rfl
        · show (if ([] : List Char) = [] then some s else lookupDirAux s [] []) = some s
          rw [if_pos rfl]
      · exact ih (c :: acc) d (by simp) (by simpa using hlast)

/-- A double slash inside the walked path resolves to nothing on well-formed
trees: the empty segment between the slashes is looked up as a key and no
well-formed node has an empty key. -/
theorem lookupDirAux_double_slash :
    ∀ (u acc : List Char) (d : DirT) (w : List Char),
      DirWf d → lookupDirAux d acc (u ++ '/' :: '/' :: w) = none := by
  intro u
  induction u with
  | nil =>
    intro acc d w hwf
    rw [List.nil_append, lookupDirAux_slash]
    rcases hl : d.subdirs.lookup acc.reverse with _ | s
    · rfl
    · show (if ('/' : Char) :: w = [] then some s else lookupDirAux s [] ('/' :: w)) = none
      rw [if_neg (by simp : ¬ ('/' : Char) :: w = []), lookupDirAux_slash,
        List.reverse_nil, wf_subdirs_lookup_empty (wf_subdir_of_lookup hwf hl)]
  | cons c u' ih =>
    intro acc d w hwf
    by_cases hc : c = '/'
    · subst hc
      rw [List.cons_append, lookupDirAux_slash]
      rcases hl : d.subdirs.lookup acc.reverse with _ | s
      · rfl
      · show (if u' ++ '/' :: '/' :: w = [] then some s
            else lookupDirAux s [] (u' ++ '/' :: '/' :: w)) = none
        rw [if_neg (by simp : ¬ u' ++ '/' :: '/' :: w = [])]
        exact ih [] s w (wf_subdir_of_lookup hwf hl)
    · rw [List.cons_append, lookupDirAux_char d acc _ c hc]
      exact ih (c :: acc) d w hwf

theorem splitLastSlash_of_not_mem :
    ∀ (cs : List Char), ¬ '/' ∈ cs → splitLastSlash cs = none := by
  intro cs
  induction cs with
  | nil => intro _; rfl
  | cons c rest ih =>
    intro h
    have hc : ¬ c = '/' := fun he => h (he ▸ List.mem_cons_self _ _)
    have hr := ih (fun hm => h (List.mem_cons_of_mem _ hm))
    unfold splitLastSlash
    rw [hr, if_neg hc]

theorem splitLastSlash_none_not_mem :
    ∀ (cs : List Char), splitLastSlash cs = none → ¬ '/' ∈ cs := by
  intro cs
  induction cs with
  | nil => intro _ h; simp at h
  | cons c rest ih =>
    intro h hm
    unfold splitLastSlash at h
    rcases hs : splitLastSlash rest with _ | ⟨b, a⟩ <;> rw [hs] at h <;> dsimp only at h
    · by_cases hc : c = '/'
      · rw [if_pos hc] at h; simp at h
      · rcases List.mem_cons.1 hm with he | hm'
        · exact hc he.symm
        · exact ih hs hm'
    · simp at h

theorem splitLastSlash_append :
    ∀ (u w : List Char), ¬ '/' ∈ w →
      splitLastSlash (u ++ '/' :: w) = some (u, w) := by
  intro u
  induction u with
  | nil =>
    intro w hw
    rw [List.nil_append]
    unfold splitLastSlash
    rw [splitLastSlash_of_not_mem w hw, if_pos rfl]
  | cons c u' ih =>
    intro w hw
    rw [List.cons_append]
    unfold splitLastSlash
    rw [ih w hw]

/-- renderTenths always contains a dot. -/
theorem renderTenths_has_dot (m : Int) : '.' ∈ (renderTenths m).data := by
  unfold renderTenths
  split <;> simp [String.data_append]

/-- The formatted percentage is never the literal "100%" (a complete encode
renders as "100.0%"). -/
theorem fmtPercent_ne_100 (f nb : Int) : fmtPercent f nb ≠ "100%" := by
  unfold fmtPercent
  split
  · split
    · decide
    · split <;> decide
  · split <;>
    · intro h
      have hd : '.' ∈ ("100%").data := by
        rw [← h]
        simp [String.data_append, renderTenths_has_dot]
      simp at hd

/-- Claim C1: the spec states that a dequeued request whose Entry.Info() is
null is logged and the encode skipped, with the transcoding flag still
cleared.  The code logs the skip message but does not skip: the nil Info
flows into TranscodeMP4, whose argument construction dereferences it, so the
worker step aborts (modelled none) and no final state — in particular none
with transcoding cleared — is ever produced.  The log message documents the
intended skip, so this is a code bug rather than a spec error. -/
theorem run_step_nil_info_logs_then_panics
    (d : Device) (e : CEntry) (probe : Except String Info) (encodeOk : Bool)
    (h : (infoCall e probe).2.1 = none) :
    runStep d e probe encodeOk = (true, none) := by
  simp [runStep, transcodeMapArgs, h]

/-- Witness for C1: the worker dequeues a request for an entry whose probe
already failed; the step logs and panics instead of clearing transcoding. -/
theorem run_step_nil_info_logs_then_panics_witness :
    (infoCall entryProbeFailed (.error "unused")).2.1 = none ∧
      runStep Device.chromeCast entryProbeFailed (.error "unused") true = (true, none) :=
  ⟨rfl, run_step_nil_info_logs_then_panics _ _ _ _ rfl⟩

/-- Claim C3: the spec states that when the 10-second timer fires the
debounce loop leaves its coalescing phase and calls enumerate.  In the code
the timer case ends in a break statement, which by Go semantics terminates
only the enclosing select, so the inner loop never exits and enumerate is
never reached — on the concrete trace refresh, refresh, timer, and indeed on
every finite event trace — while the loop the spec describes does reach it.
The log line "Will refresh in 10s" and the enumerate call directly after the
loop document the intent, so this is a code bug. -/
theorem debounce_break_never_reaches_enumerate :
    enumerateReached [DebounceEv.refresh, DebounceEv.refresh, DebounceEv.timer] = false ∧
    enumerateReachedSpec [DebounceEv.refresh, DebounceEv.refresh, DebounceEv.timer] = true ∧
    ∀ trace : List DebounceEv, enumerateReached trace = false := by
  refine ⟨rfl, rfl, ?_⟩
  intro trace
  induction trace with
  | nil => rfl
  | cons e es ih =>
    cases e <;> simpa [enumerateReached, innerLoopExits, caseEndExitsLoop, innerSelectCase]
      using ih

/-- Claim C2 counterexample: an entry whose every device cache bit is set
and whose metadata reports 200 frames with 50 done: Percent returns "25.0%",
not the "100%" the claim requires whenever the cache bit is set (the current
Entry.Percent never consults the cache bits). -/
theorem percent_cached_counterexample :
    entryCachedHalf.cached Device.chromeCast = true ∧
    (percent entryCachedHalf (.error "unused")).1 = some "25.0%" ∧
    (some "25.0%" : Option String) ≠ some "100%" := by
  refine ⟨rfl, by decide, by decide⟩

/-- Claim C2 (amended): Percent ignores the device cache bits entirely (its
result is invariant under any rewrite of them, and it never returns the
literal "100%"); it returns "N/A" when the metadata is unavailable or the
frame count of the video stream cannot be parsed as an integer, and
otherwise 100·frame/totalFrames formatted with one decimal place.  (When
VideoIndex is out of range for the stream list the Go code panics, the none
result, so those clauses are stated under the in-range bound.) -/
theorem percent_amended (e : CEntry) (probe : Except String Info) (b : Device → Bool) :
    ((percent { e with cached := b } probe).1 = (percent e probe).1) ∧
    ((percent e probe).1 ≠ some "100%") ∧
    ((infoCall e probe).2.1 = none → (percent e probe).1 = some "N/A") ∧
    (∀ v, (infoCall e probe).2.1 = some v →
      ∀ h : 0 ≤ v.videoIndex ∧ v.videoIndex.toNat < v.raw.streams.length,
        (atoi (v.raw.streams.get ⟨v.videoIndex.toNat, h.2⟩).nbFrames = none →
          (percent e probe).1 = some "N/A") ∧
        (∀ nb, atoi (v.raw.streams.get ⟨v.videoIndex.toNat, h.2⟩).nbFrames = some nb →
          (percent e probe).1 = some (fmtPercent e.frame nb))) := by
  have hfr := infoCall_frame e probe
  refine ⟨?_, ?_, ?_, ?_⟩
  · have h2 := infoCall_cached_irrel e probe b
    have hfr2 := infoCall_frame { e with cached := b } probe
    simp only [percent, h2, hfr, hfr2]
    rcases hi : (infoCall e probe).2.1 with _ | v
    · simp
    · simp only
      split
      · split <;> simp
      · simp
  · simp only [percent]
    rcases hi : (infoCall e probe).2.1 with _ | v
    · simp
    · simp only
      split
      · split
        · simp
        · simp [fmtPercent_ne_100]
      · simp
  · intro h
    simp only [percent, h]
  · intro v hv h
    have hget : (v.raw.streams[v.videoIndex.toNat]) =
        v.raw.streams.get ⟨v.videoIndex.toNat, h.2⟩ :=
      (List.get_eq_getElem v.raw.streams ⟨v.videoIndex.toNat, h.2⟩).symm
    constructor
    · intro ha
      simp only [percent, hv]
      rw [dif_pos h, hget, ha]
    · intro nb ha
      simp only [percent, hv, hfr]
      rw [dif_pos h, hget, ha]

/-- Witness for C2 (amended): the loaded entry with 50 of 200 frames
satisfies the hypotheses of the formatted-percentage clause. -/
theorem percent_amended_witness :
    (infoCall entryCachedHalf (.error "unused")).2.1 = some infoFrames200 ∧
    atoi (infoFrames200.raw.streams.get ⟨infoFrames200.videoIndex.toNat, by decide⟩).nbFrames
      = some 200 ∧
    (percent entryCachedHalf (.error "unused")).1 = some (fmtPercent 50 200) :=
  ⟨rfl, by decide,
    ((percent_amended entryCachedHalf (.error "unused") (fun _ => true)).2.2.2
        infoFrames200 rfl ⟨by decide, by decide⟩).2 200 (by decide)⟩

/-- Claim C8: Entry.Info() is a lazy one-shot probe: on a fresh entry a
successful probe is stored and returned and a failing probe stores the error
and returns null; on an entry with a stored outcome the probe is not invoked
(third component false), the state is unchanged and the stored info — null
when only the error is stored — is returned.  The five equations cover every
combination of stored info and stored error. -/
theorem entry_info_one_shot
    (e : CEntry) (v : Info) (m : String) (probe : Except String Info) :
    (infoCall { e with info := none, err := none } (.ok v) =
      ({ e with info := some v, err := none }, some v, true)) ∧
    (infoCall { e with info := none, err := none } (.error m) =
      ({ e with info := none, err := some m }, none, true)) ∧
    (infoCall { e with info := some v } probe =
      ({ e with info := some v }, some v, false)) ∧
    (infoCall { e with info := some v, err := some m } probe =
      ({ e with info := some v, err := some m }, some v, false)) ∧
    (infoCall { e with info := none, err := some m } probe =
      ({ e with info := none, err := some m }, none, false)) := by
  refine ⟨?_, ?_, ?_, ?_, ?_⟩ <;> simp [infoCall]

/-- Claim C4: whenever the number of video streams that survive the cover-art
filtering differs from one — more than one remains, or none — Identify
returns an error.  The embedding is total, so in particular the no-video case
is an error value rather than an out-of-range index (the source checks
len(videos) == 0 before indexing videos[0]). -/
theorem identify_video_count_error (durFmt : String → Option String) (lang : String)
    (raw : ProbeResult) (h : (selectableVideos raw).length ≠ 1) :
    ∃ m, identify durFmt lang raw = .error m := by
  unfold identify
  rcases hd : durStepF durFmt raw.format.duration with e | dur
  · exact ⟨e, rfl⟩
  · rcases hc : classify raw.streams.enum [] [] with e | ⟨as, vs⟩
    · exact ⟨e, rfl⟩
    · have hlen : vs.length = (selectableVideos raw).length := by
        rw [← (classify_enum_snd hc).2, List.length_map]
      dsimp only
      by_cases hl : vs.length > 1
      · rw [if_pos hl]; exact ⟨_, rfl⟩
      · rw [if_neg hl]
        rcases vs with _ | ⟨v0, t⟩
        · exact ⟨_, rfl⟩
        · exfalso
          apply h
          rw [← hlen]
          simp only [List.length_cons] at hl ⊢
          omega

/-- Witness for C4: a probe result with one audio stream and no video stream
is rejected with an error. -/
theorem identify_video_count_error_witness :
    (selectableVideos ⟨[stAudEng], fmtEmpty⟩).length ≠ 1 ∧
    ∃ m, identify durFmtNone "eng" ⟨[stAudEng], fmtEmpty⟩ = .error m :=
  ⟨by decide, identify_video_count_error durFmtNone "eng" _ (by decide)⟩

/-- Claim C5 counterexample: the cache mapping is not injective on
(rel, device): two source paths that differ only in their extension collide
after the extension is replaced.  The example path of the claim also comes
out with the stringer-capitalized device name ChromeCast, not the lowercase
chromecast of the spec text. -/
theorem to_cached_path_counterexample :
    toCachedPath "a.mkv" Device.chromeCast = toCachedPath "a.avi" Device.chromeCast ∧
    ("a.mkv" : String) ≠ "a.avi" ∧
    toCachedPath "movies/a.mkv" Device.chromeCast = "ChromeCast/movies/a.mp4" ∧
    ("ChromeCast/movies/a.mp4" : String) ≠ "chromecast/movies/a.mp4" := by
  exact ⟨by decide, by decide, by decide, by decide⟩

/-- Claim C5 (amended): the cache mapping prepends the device String() value
(the capitalized constant name) and replaces the extension with the device
container extension, so the result's filepath.Ext equals "." plus the
container; the mapping is deterministic and injective on
(extension-stripped rel, device) pairs — but not on (rel, device) pairs,
because the original extension is discarded. -/
theorem to_cached_path_amended (a b : String) (d d' : Device) :
    extOf (toCachedPath a d).data = '.' :: (Device.toContainer d).data ∧
    (toCachedPath a d = toCachedPath b d' ↔
      d = d' ∧ stripExtData a = stripExtData b) := by
  constructor
  · rw [toCachedPath_data, toContainer_mp4]
    rw [extOf_append_slash]
    exact extOf_append_dot_mp4 _
  · constructor
    · intro h
      have hdata : (toCachedPath a d).data = (toCachedPath b d').data := by rw [h]
      rw [toCachedPath_data, toCachedPath_data] at hdata
      obtain ⟨h1, h2⟩ := no_slash_append_inj _ _ _ _
        (dev_str_no_slash d) (dev_str_no_slash d') hdata
      refine ⟨dev_str_inj _ _ h1, ?_⟩
      exact List.append_cancel_right h2
    · rintro ⟨hd, hs⟩
      subst hd
      apply String.ext
      rw [toCachedPath_data, toCachedPath_data, hs]

/-- A small catalog tree: an entry x at the root and a subdirectory a holding
an entry b. -/
def tDemo : DirT :=
  .node [("a".data, .node [] [("b".data, 7)])] [("x".data, 3)]

theorem tDemo_wf : DirWf tDemo := by
  refine DirWf.node ?_ ?_ ?_
  · intro k e hk
    simp only [List.mem_singleton, Prod.mk.injEq] at hk
    rw [hk.1]
    decide
  · intro k c hk
    simp only [List.mem_singleton, Prod.mk.injEq] at hk
    rw [hk.1]
    decide
  · intro k c hk
    simp only [List.mem_singleton, Prod.mk.injEq] at hk
    rw [hk.2]
    refine DirWf.node ?_ ?_ ?_
    · intro k e hk
      simp only [List.mem_singleton, Prod.mk.injEq] at hk
      rw [hk.1]
      decide
    · intro k c hk
      simp at hk
    · intro k c hk
      simp at hk

/-- Claim C6 counterexample: on a well-formed tree holding entry a/b, the
path a//b — which has a "//" component — resolves to the entry instead of
returning null: the last slash splits it into the directory prefix "a/" and
the component "b", and lookupDir ignores the trailing slash of "a/". -/
theorem lookup_entry_double_slash_counterexample :
    DirWf tDemo ∧ lookupEntry tDemo "a//b".data = some 7 :=
  ⟨tDemo_wf, rfl⟩

/-- Claim C6 (amended): on well-formed trees, lookupDir returns the receiver
for the empty path, ignores a single trailing slash, and returns null for a
leading slash or any "//"; lookupEntry returns null for a leading slash or a
trailing slash and resolves a slash-free path as an Items key — but a "//"
immediately before the final component is treated as a single slash (the
directory prefix then carries a trailing slash, which lookupDir ignores),
while a "//" deeper inside the directory prefix still yields null (covered by
the lookupDir clause). -/
theorem lookup_path_rules (d : DirT) (hwf : DirWf d) :
    (lookupDir d [] = some d) ∧
    (∀ rel, rel ≠ [] → rel.getLast? ≠ some '/' →
      lookupDir d (rel ++ ['/']) = lookupDir d rel) ∧
    (∀ rest, lookupDir d ('/' :: rest) = none) ∧
    (∀ u w, lookupDir d (u ++ '/' :: '/' :: w) = none) ∧
    (∀ rest, lookupEntry d ('/' :: rest) = none) ∧
    (∀ rel, lookupEntry d (rel ++ ['/']) = none) ∧
    (∀ rel, ¬ '/' ∈ rel → lookupEntry d rel = d.items.lookup rel) ∧
    (∀ u w, u ≠ [] → u.getLast? ≠ some '/' → ¬ '/' ∈ w →
      lookupEntry d (u ++ '/' :: '/' :: w) = lookupEntry d (u ++ '/' :: w)) := by
  have hdir_slash : ∀ rest, lookupDir d ('/' :: rest) = none := by
    intro rest
    unfold lookupDir
    rw [if_neg (by simp : ¬ ('/' : Char) :: rest = []), lookupDirAux_slash,
      List.reverse_nil, wf_subdirs_lookup_empty hwf]
  have htrail : ∀ rel, rel ≠ [] → rel.getLast? ≠ some '/' →
      lookupDir d (rel ++ ['/']) = lookupDir d rel := by
    intro rel h1 h2
    unfold lookupDir
    rw [if_neg (by simp [h1] : ¬ rel ++ ['/'] = []), if_neg h1]
    exact lookupDirAux_trailing rel [] d h1 h2
  refine ⟨by simp [lookupDir], htrail, hdir_slash, ?_, ?_, ?_, ?_, ?_⟩
  · intro u w
    unfold lookupDir
    rw [if_neg (by simp : ¬ u ++ '/' :: '/' :: w = [])]
    exact lookupDirAux_double_slash u [] d w hwf
  · intro rest
    unfold lookupEntry
    rcases hs : splitLastSlash ('/' :: rest) with _ | ⟨before, after⟩
    · exact absurd (splitLastSlash_none_not_mem _ hs) (by simp)
    · unfold splitLastSlash at hs
      rcases hr : splitLastSlash rest with _ | ⟨b, a⟩ <;> rw [hr] at hs <;> dsimp only at hs
      · rw [if_pos rfl] at hs
        injection hs with hs
        rw [← hs]
        dsimp only
        rw [if_pos rfl]
      · injection hs with hs
        rw [← hs]
        dsimp only
        rw [if_neg (by simp : ¬ ('/' : Char) :: b = []), hdir_slash b]
  · intro rel
    unfold lookupEntry
    rw [splitLastSlash_append rel [] (by simp)]
    dsimp only
    by_cases h1 : rel = []
    · rw [if_pos h1]
    · rw [if_neg h1]
      rcases hl : lookupDir d rel with _ | s
      · rfl
      · exact wf_items_lookup_empty (lookupDir_wf hwf hl)
  · intro rel hrel
    unfold lookupEntry
    rw [splitLastSlash_of_not_mem rel hrel]
  · intro u w hu hlast hw
    unfold lookupEntry
    rw [show u ++ '/' :: '/' :: w = (u ++ ['/']) ++ '/' :: w by simp,
      splitLastSlash_append (u ++ ['/']) w hw,
      splitLastSlash_append u w hw]
    dsimp only
    rw [if_neg (by simp : ¬ u ++ ['/'] = []), if_neg hu, htrail u hu hlast]

/-- Witness for C6 (amended): concrete rejections and resolutions on the
demo tree. -/
theorem lookup_path_rules_witness :
    (lookupDir tDemo [] = some tDemo) ∧
    (lookupDir tDemo ("a".data ++ ['/']) = lookupDir tDemo "a".data) ∧
    (lookupDir tDemo ('/' :: "a".data) = none) ∧
    (lookupEntry tDemo ('/' :: "x".data) = none) ∧
    (lookupEntry tDemo ("a/b".data ++ ['/']) = none) ∧
    (lookupEntry tDemo "x".data = tDemo.items.lookup "x".data) := by
  have h := lookup_path_rules tDemo tDemo_wf
  exact ⟨h.1, h.2.1 "a".data (by decide) (by decide), h.2.2.1 "a".data,
    h.2.2.2.2.1 "x".data, h.2.2.2.2.2.1 "a/b".data,
    h.2.2.2.2.2.2.1 "x".data (by decide)⟩

/-- Claim C7: with preferred language fre, a probe holding one video stream
and two selectable audio streams tagged eng and fre yields AudioLang fre in
both stream orders: the fold keeps overwriting the chosen triple until the
chosen language equals the preferred one, then stops updating. -/
theorem identify_audio_lang_roundtrip (durFmt : String → Option String)
    (v a1 a2 : Stream) (fm : FormatInfo)
    (hd : fm.duration = "")
    (hv : v.codecType = "video") (hvm : ¬ tagGet v "mimetype" = "image/jpeg")
    (h1t : a1.codecType = "audio") (h1c : ¬ a1.codecName = "")
    (h1l : tagGet a1 "language" = "eng")
    (h2t : a2.codecType = "audio") (h2c : ¬ a2.codecName = "")
    (h2l : tagGet a2 "language" = "fre") :
    (∃ i, identify durFmt "fre" ⟨[v, a1, a2], fm⟩ = .ok i ∧ i.audioLang = "fre") ∧
    (∃ i, identify durFmt "fre" ⟨[v, a2, a1], fm⟩ = .ok i ∧ i.audioLang = "fre") := by
  constructor
  · have e1 : identify durFmt "fre" ⟨[v, a1, a2], fm⟩ = .ok
        { container := fm.formatName, duration := "", videoIndex := v.index
          videoCodec := v.codecName, audioIndex := a2.index, audioCodec := a2.codecName
          audioLang := "fre", raw := ⟨[v, a1, a2], fm⟩ } := by
      unfold identify durStepF
      simp [classify, List.enum, List.enumFrom, hd, hv, hvm, h1t, h1c, h2t, h2c,
        audioFold, h1l, h2l]
    exact ⟨_, e1, rfl⟩
  · have e2 : identify durFmt "fre" ⟨[v, a2, a1], fm⟩ = .ok
        { container := fm.formatName, duration := "", videoIndex := v.index
          videoCodec := v.codecName, audioIndex := a2.index, audioCodec := a2.codecName
          audioLang := "fre", raw := ⟨[v, a2, a1], fm⟩ } := by
      unfold identify durStepF
      simp [classify, List.enum, List.enumFrom, hd, hv, hvm, h1t, h1c, h2t, h2c,
        audioFold, h1l, h2l]
    exact ⟨_, e2, rfl⟩

/-- Witness for C7: concrete eng and fre streams. -/
theorem identify_audio_lang_roundtrip_witness :
    (∃ i, identify durFmtNone "fre" ⟨[stVid, stAudEng, stAudFre], fmtEmpty⟩ = .ok i ∧
        i.audioLang = "fre") ∧
    (∃ i, identify durFmtNone "fre" ⟨[stVid, stAudFre, stAudEng], fmtEmpty⟩ = .ok i ∧
        i.audioLang = "fre") :=
  identify_audio_lang_roundtrip durFmtNone stVid stAudEng stAudFre fmtEmpty
    rfl rfl (by decide) rfl (by decide) rfl rfl (by decide) rfl

/-- Claim C9: a stream of codec type audio with an empty codec name is never
classified as selectable, and the chosen audio triple of a successful
Identify is either the untouched zero value or comes from a selectable audio
stream — whose codec name is non-empty — so an empty-codec audio stream can
never become the chosen audio stream. -/
theorem identify_audio_excludes_codecless (durFmt : String → Option String)
    (lang : String) (raw : ProbeResult) (i : Info)
    (h : identify durFmt lang raw = .ok i) :
    ((i.audioIndex, i.audioCodec, i.audioLang) = (0, "", "") ∨
      ∃ s ∈ selectableAudios raw,
        (i.audioIndex, i.audioCodec, i.audioLang) = (s.index, s.codecName, tagGet s "language")) ∧
    (∀ s ∈ raw.streams, s.codecType = "audio" → s.codecName = "" →
      ¬ s ∈ selectableAudios raw) := by
  obtain ⟨as, vs, hc, htriple⟩ := identify_ok_parts h
  constructor
  · rcases audioFold_mem lang as (0, "", "") with hf | ⟨q, hq, hf⟩
    · left; rw [htriple, hf]
    · right
      refine ⟨q.2, ?_, by rw [htriple, hf]⟩
      rw [← (classify_enum_snd hc).1]
      exact List.mem_map_of_mem Prod.snd hq
  · intro s _ _ hcodec hmem
    have := List.of_mem_filter hmem
    simp [audioSel, hcodec] at this

/-- The analysis of the eng/fre probe with preferred language fre. -/
def infoEngFre : Info :=
  { container := "mkv", duration := "", videoIndex := 0, videoCodec := "h264"
    audioIndex := 2, audioCodec := "aac", audioLang := "fre"
    raw := ⟨[stVid, stAudEng, stAudFre], fmtEmpty⟩ }

/-- The analysis of the eng/und probe with preferred language fre. -/
def infoEngUnd : Info :=
  { container := "mkv", duration := "", videoIndex := 0, videoCodec := "h264"
    audioIndex := 5, audioCodec := "aac", audioLang := "und"
    raw := ⟨[stVid, stAudEng, stAudUnd], fmtEmpty⟩ }

/-- The analysis of the und probe with preferred language "". -/
def infoUndEmptyLang : Info :=
  { container := "mkv", duration := "", videoIndex := 0, videoCodec := "h264"
    audioIndex := 0, audioCodec := "", audioLang := ""
    raw := ⟨[stVid, stAudUnd], fmtEmpty⟩ }

/-- Witness for C9: the eng/fre probe yields a chosen audio stream drawn from
the selectable list. -/
theorem identify_audio_excludes_codecless_witness :
    ∃ i, identify durFmtNone "fre" ⟨[stVid, stAudEng, stAudFre], fmtEmpty⟩ = .ok i ∧
      (((i.audioIndex, i.audioCodec, i.audioLang) = (0, "", "") ∨
        ∃ s ∈ selectableAudios ⟨[stVid, stAudEng, stAudFre], fmtEmpty⟩,
          (i.audioIndex, i.audioCodec, i.audioLang) =
            (s.index, s.codecName, tagGet s "language"))) :=
  have hv : identify durFmtNone "fre" ⟨[stVid, stAudEng, stAudFre], fmtEmpty⟩ =
      .ok infoEngFre := rfl
  ⟨infoEngFre, hv,
    (identify_audio_excludes_codecless durFmtNone "fre"
        ⟨[stVid, stAudEng, stAudFre], fmtEmpty⟩ infoEngFre hv).1⟩

/-- Claim C10 counterexample: with preferred language "" (the empty string)
and a single selectable audio stream tagged und — so no selectable stream
matches the preferred language — Identify returns the zero triple, not the
last selectable audio stream: the fold's initial chosen language "" already
equals the preferred language, so nothing is ever chosen. -/
theorem identify_last_audio_counterexample :
    (∀ s ∈ selectableAudios ⟨[stVid, stAudUnd], fmtEmpty⟩, tagGet s "language" ≠ "") ∧
    (selectableAudios ⟨[stVid, stAudUnd], fmtEmpty⟩).getLast? = some stAudUnd ∧
    (∃ i, identify durFmtNone "" ⟨[stVid, stAudUnd], fmtEmpty⟩ = .ok i ∧
      (i.audioIndex, i.audioCodec, i.audioLang) = (0, "", "")) ∧
    (stAudUnd.index, stAudUnd.codecName, tagGet stAudUnd "language") = (5, "aac", "und") ∧
    ((0 : Int), "", "") ≠ ((5 : Int), "aac", "und") := by
  refine ⟨by decide, by decide, ⟨infoUndEmptyLang, rfl, rfl⟩, by decide, by decide⟩

/-- Claim C10 (amended): when the preferred language L is non-empty and no
selectable audio stream's language tag equals L, the chosen audio triple of a
successful Identify is the last selectable audio stream in file order.  (For
L = "" the fold never updates, because the initial chosen language already
equals L; see the counterexample.) -/
theorem identify_last_audio_amended (durFmt : String → Option String)
    (lang : String) (raw : ProbeResult) (i : Info) (slast : Stream)
    (hlang : lang ≠ "")
    (hnone : ∀ s ∈ selectableAudios raw, tagGet s "language" ≠ lang)
    (h : identify durFmt lang raw = .ok i)
    (hlast : (selectableAudios raw).getLast? = some slast) :
    (i.audioIndex, i.audioCodec, i.audioLang) =
      (slast.index, slast.codecName, tagGet slast "language") := by
  obtain ⟨as, vs, hc, htriple⟩ := identify_ok_parts h
  have hmap := (classify_enum_snd hc).1
  have hmap_last : (as.map Prod.snd).getLast? = some slast := by rw [hmap]; exact hlast
  rw [List.getLast?_map] at hmap_last
  rcases hql : as.getLast? with _ | q <;> rw [hql] at hmap_last
  · simp at hmap_last
  · simp at hmap_last
    have hupd := audioFold_no_match lang as (0, "", "") q
      (fun heq => hlang heq.symm)
      (fun p hp => hnone p.2 (by rw [← hmap]; exact List.mem_map_of_mem Prod.snd hp))
      hql
    rw [htriple, hupd, hmap_last]

/-- Witness for C10 (amended): preferred language fre, selectable audio
streams tagged eng then und: the chosen stream is the last one (und). -/
theorem identify_last_audio_amended_witness :
    ∃ i, identify durFmtNone "fre" ⟨[stVid, stAudEng, stAudUnd], fmtEmpty⟩ = .ok i ∧
      (i.audioIndex, i.audioCodec, i.audioLang) =
        (stAudUnd.index, stAudUnd.codecName, tagGet stAudUnd "language") :=
  have hv : identify durFmtNone "fre" ⟨[stVid, stAudEng, stAudUnd], fmtEmpty⟩ =
      .ok infoEngUnd := rfl
  ⟨infoEngUnd, hv,
    identify_last_audio_amended durFmtNone "fre" ⟨[stVid, stAudEng, stAudUnd], fmtEmpty⟩
      infoEngUnd stAudUnd (by decide) (by decide) hv (by decide)⟩

end ServeMp4
